import Mathlib

/-!
Verification development for the WIT-interface generator (`src/main.rs`).

The Rust source is shallowly embedded: each Rust function becomes a Lean
function of the same name operating on explicit data.  Character classes
(`is_uppercase`, `is_lowercase`, `is_digit`) and case conversion are modelled
at ASCII level, matching the behaviour of the Rust source on the ASCII
identifiers it is designed for.  `HashSet`/`HashMap` are modelled as lists:
sets as lists with membership-guarded insertion, maps as association lists
with overwrite-on-collision (`hm_insert`), keys iterated in insertion order.
File-system effects are modelled as returned data (file name / content pairs);
reading and parsing are external, so the embedded pipeline starts from parsed
syntax trees.
-/

namespace WitGen

instance {ε α : Type} [DecidableEq ε] [DecidableEq α] : DecidableEq (Except ε α) := fun x y =>
  match x, y with
  | .ok a, .ok b =>
    if h : a = b then .isTrue (by rw [h]) else .isFalse (by intro hc; cases hc; exact h rfl)
  | .error a, .error b =>
    if h : a = b then .isTrue (by rw [h]) else .isFalse (by intro hc; cases hc; exact h rfl)
  | .ok _, .error _ => .isFalse (by intro hc; cases hc)
  | .error _, .ok _ => .isFalse (by intro hc; cases hc)

/-- ASCII decimal digit test, the model of Rust `char::is_digit(10)`. -/
def is_digit (c : Char) : Bool := 48 ≤ c.toNat && c.toNat ≤ 57

/-- ASCII uppercase test, the model of Rust `char::is_uppercase` on ASCII input. -/
def is_uppercase (c : Char) : Bool := 65 ≤ c.toNat && c.toNat ≤ 90

/-- ASCII lowercase test, the model of Rust `char::is_lowercase` on ASCII input. -/
def is_lowercase (c : Char) : Bool := 97 ≤ c.toNat && c.toNat ≤ 122

/-- Model of Rust `char::to_lowercase` restricted to ASCII. -/
def lower_char (c : Char) : Char :=
  if is_uppercase c then Char.ofNat (c.toNat + 32) else c

/-- Lowercase every character: model of Rust `str::to_lowercase` on ASCII input. -/
def lower_str (s : String) : String := String.mk (s.toList.map lower_char)

/-- Substring test: model of Rust `str::contains(&str)`. -/
def str_contains (hay needle : String) : Bool :=
  hay.toList.tails.any (fun t => needle.toList.isPrefixOf t)

/-- The hyphen-insertion condition of `to_kebab_case` (`main.rs` lines 25-28):
there is a previous character (`i > 0`) and either it is lowercase or the
lookahead character exists (`i < len - 1`) and is lowercase.  `prev` is the
previous character of the ORIGINAL string (`chars[i-1]`); the lookahead
`chars[i+1]` is the head of `rest`.  `kebab_go` is the character loop itself
(lines 19-35). -/
def hyphen_cond (prev : Option Char) (rest : List Char) : Bool :=
  match prev with
  | some p =>
      is_lowercase p ||
        (match rest with
         | n :: _ => is_lowercase n
         | [] => false)
  | none => false

def kebab_go : Option Char → List Char → List Char
  | _, [] => []
  | prev, c :: rest =>
    if is_uppercase c then
      (if hyphen_cond prev rest then
        '-' :: lower_char c :: kebab_go (some c) rest
      else
        lower_char c :: kebab_go (some c) rest)
    else
      c :: kebab_go (some c) rest

/-- Model of `to_kebab_case` (`main.rs` lines 10-38).  If the input contains an
underscore, every underscore is replaced by a hyphen and nothing else happens
(in particular no lowercasing); otherwise the case-transition loop runs. -/
def to_kebab_case (s : String) : String :=
  if s.toList.contains '_' then
    String.mk (s.toList.map (fun c => if c = '_' then '-' else c))
  else
    String.mk (kebab_go Option.none s.toList)

/-- Model of `validate_name` (`main.rs` lines 41-53): reject names containing a
decimal digit or the case-insensitive substring "stream". -/
def validate_name (name kind : String) : Except String Unit :=
  if name.toList.any is_digit then
    .error ("Error: " ++ kind ++ " name '" ++ name ++ "' contains numbers, which is not allowed")
  else if str_contains (lower_str name) "stream" then
    .error ("Error: " ++ kind ++ " name '" ++ name ++ "' contains 'stream', which is not allowed")
  else
    .ok ()

/-- Model of Rust `str::ends_with(&str)`. -/
def ends_with (s suf : String) : Bool := suf.toList.isSuffixOf s.toList

/-- Model of Rust `str::starts_with(&str)`. -/
def starts_with (s pre : String) : Bool := pre.toList.isPrefixOf s.toList

/-- Model of `remove_state_suffix` (`main.rs` lines 56-62). -/
def remove_state_suffix (name : String) : String :=
  if ends_with name "State" then
    String.mk (name.toList.take (name.toList.length - 5))
  else
    name

/-- Repeatedly drop a (nonempty) prefix from a character list; the fuel is an
upper bound on the number of removals, sufficient whenever it is at least the
length of the list. -/
def trim_rev_go : Nat → List Char → List Char → List Char
  | 0, _, l => l
  | fuel + 1, pat, l =>
    if pat ≠ [] ∧ pat.isPrefixOf l then trim_rev_go fuel pat (l.drop pat.length) else l

/-- Model of Rust `str::trim_end_matches(&str)`: repeatedly strip the pattern
from the end of the string. -/
def trim_end_matches (s pat : String) : String :=
  String.mk (trim_rev_go s.toList.length pat.toList.reverse s.toList.reverse).reverse

/-- `true` exactly on the `error` constructor, the model of `Result::is_err`. -/
def is_err {α : Type} (r : Except String α) : Bool :=
  match r with
  | .error _ => true
  | .ok _ => false

/-!  The model of `syn::Type` as consumed by `rust_type_to_wit`
(`main.rs` lines 95-172).  A path type is a sequence of segments, each an
identifier with optional generic arguments; angle-bracketed argument lists
distinguish type arguments from non-type (lifetime/const) arguments because
the source checks whether the FIRST argument is a type.  `PathArgs.notAngle`
covers both `PathArguments::None` and `PathArguments::Parenthesized`, which
the source treats identically.  `RustType.otherTy` covers every `syn::Type`
shape other than `Path`, `Reference` and `Tuple` (the source's `_` arm). -/

mutual
inductive RustType : Type where
  | path (segs : SegList)
  | reference (elem : RustType)
  | tuple (elems : TyList)
  | otherTy
  deriving DecidableEq
inductive SegList : Type where
  | nil
  | cons (ident : String) (args : PathArgs) (rest : SegList)
  deriving DecidableEq
inductive PathArgs : Type where
  | notAngle
  | angle (args : ArgList)
  deriving DecidableEq
inductive ArgList : Type where
  | nil
  | consTy (t : RustType) (rest : ArgList)
  | consOther (rest : ArgList)
  deriving DecidableEq
inductive TyList : Type where
  | nil
  | cons (t : RustType) (rest : TyList)
  deriving DecidableEq
end

/-! Model of `rust_type_to_wit` (`main.rs` lines 95-172).  The mutable
`used_types : HashSet<String>` becomes a threaded list with membership-guarded
insertion.  `path_to_wit` walks to the LAST path segment (the source's
`segments.last()`), `seg_to_wit` is the `match type_name.as_str()` body, and
`tylist_to_wit` is the element loop of the tuple arm. -/
mutual
def rust_type_to_wit : RustType → List String → Except String (String × List String)
  | .path segs, used_types => path_to_wit segs used_types
  | .reference type_ref, used_types => rust_type_to_wit type_ref used_types
  | .tuple .nil, used_types => .ok ("unit", used_types)
  | .tuple (.cons t rest), used_types => do
      let (elem_types, u) ← tylist_to_wit (.cons t rest) used_types
      .ok ("tuple<" ++ String.intercalate ", " elem_types ++ ">", u)
  | .otherTy, used_types => .ok ("unknown", used_types)
def path_to_wit : SegList → List String → Except String (String × List String)
  | .nil, used_types => .ok ("unknown", used_types)
  | .cons ident args .nil, used_types => seg_to_wit ident args used_types
  | .cons _ _ (.cons i a r), used_types => path_to_wit (.cons i a r) used_types
def seg_to_wit : String → PathArgs → List String → Except String (String × List String)
  | "i32", _, used_types => .ok ("s32", used_types)
  | "u32", _, used_types => .ok ("u32", used_types)
  | "i64", _, used_types => .ok ("s64", used_types)
  | "u64", _, used_types => .ok ("u64", used_types)
  | "f32", _, used_types => .ok ("f32", used_types)
  | "f64", _, used_types => .ok ("f64", used_types)
  | "String", _, used_types => .ok ("string", used_types)
  | "bool", _, used_types => .ok ("bool", used_types)
  | "Vec", .angle (.consTy inner_ty _), used_types => do
      let (inner_type, u) ← rust_type_to_wit inner_ty used_types
      .ok ("list<" ++ inner_type ++ ">", u)
  | "Vec", _, used_types => .ok ("list<any>", used_types)
  | "Option", .angle (.consTy inner_ty _), used_types => do
      let (inner_type, u) ← rust_type_to_wit inner_ty used_types
      .ok ("option<" ++ inner_type ++ ">", u)
  | "Option", _, used_types => .ok ("option<any>", used_types)
  | custom, _, used_types =>
      match validate_name custom "Type" with
      | .error e => .error e
      | .ok _ =>
          let kebab_custom := to_kebab_case custom
          .ok (kebab_custom, used_types.insert kebab_custom)
def tylist_to_wit : TyList → List String → Except String (List String × List String)
  | .nil, used_types => .ok ([], used_types)
  | .cons t rest, used_types => do
      let (s, u) ← rust_type_to_wit t used_types
      let (ss, u₂) ← tylist_to_wit rest u
      .ok (s :: ss, u₂)
end

/-- The identifiers `rust_type_to_wit` treats specially; everything else is a
custom type name. -/
def builtin_idents : List String :=
  ["i32", "u32", "i64", "u64", "f32", "f64", "String", "bool", "Vec", "Option"]

/-- A name that `validate_name` rejects: it contains a decimal digit or the
case-insensitive substring "stream". -/
def bad_ident (n : String) : Bool :=
  n.toList.any is_digit || str_contains (lower_str n) "stream"

/-! The containment predicate of claim C9 read literally: somewhere inside the
type expression (any segment of any path, any generic argument, any tuple
element, any reference target) there is a path type whose LAST segment is a
custom name (not a primitive, `Vec`, or `Option`) that fails naming
validation. -/
mutual
def contains_invalid_path : RustType → Bool
  | .path segs => last_seg_invalid segs || segs_contain_invalid segs
  | .reference elem => contains_invalid_path elem
  | .tuple elems => tylist_contain_invalid elems
  | .otherTy => false
def last_seg_invalid : SegList → Bool
  | .nil => false
  | .cons ident _ .nil => !builtin_idents.contains ident && bad_ident ident
  | .cons _ _ (.cons i a r) => last_seg_invalid (.cons i a r)
def segs_contain_invalid : SegList → Bool
  | .nil => false
  | .cons _ args rest => args_contain_invalid args || segs_contain_invalid rest
def args_contain_invalid : PathArgs → Bool
  | .notAngle => false
  | .angle l => arglist_contain_invalid l
def arglist_contain_invalid : ArgList → Bool
  | .nil => false
  | .consTy t rest => contains_invalid_path t || arglist_contain_invalid rest
  | .consOther rest => arglist_contain_invalid rest
def tylist_contain_invalid : TyList → Bool
  | .nil => false
  | .cons t rest => contains_invalid_path t || tylist_contain_invalid rest
end

/-! The positions `rust_type_to_wit` actually traverses: the last path
segment, the FIRST angle-bracketed argument of `Vec`/`Option` when it is a
type, reference targets, and tuple elements.  `visits_invalid` holds iff an
invalid custom name sits in a traversed position. -/
mutual
def visits_invalid : RustType → Bool
  | .path segs => path_visits_invalid segs
  | .reference elem => visits_invalid elem
  | .tuple elems => tylist_visits_invalid elems
  | .otherTy => false
def path_visits_invalid : SegList → Bool
  | .nil => false
  | .cons ident args .nil => seg_visits_invalid ident args
  | .cons _ _ (.cons i a r) => path_visits_invalid (.cons i a r)
def seg_visits_invalid : String → PathArgs → Bool
  | "i32", _ => false
  | "u32", _ => false
  | "i64", _ => false
  | "u64", _ => false
  | "f32", _ => false
  | "f64", _ => false
  | "String", _ => false
  | "bool", _ => false
  | "Vec", .angle (.consTy inner _) => visits_invalid inner
  | "Vec", _ => false
  | "Option", .angle (.consTy inner _) => visits_invalid inner
  | "Option", _ => false
  | custom, _ => bad_ident custom
def tylist_visits_invalid : TyList → Bool
  | .nil => false
  | .cons t rest => visits_invalid t || tylist_visits_invalid rest
end

/-!  The model of the parsed syntax tree (`syn::File`) as consumed by
`collect_type_definitions` and `process_rust_project`.  Struct fields carry an
optional identifier mirroring `syn::Field::ident`; `StructFields.notNamed`
covers unit and tuple structs (the source's `_` arm).  For an impl block,
`hyper = some w` means the block carries a `#[hyperprocess]` attribute, with
`w = some name` when `extract_wit_world` succeeds on it and `w = none` when
the attribute lacks a readable `wit_world` (the attribute-string parsing of
`extract_wit_world`, lines 65-92, is abstracted to this option since it only
inspects attribute text, not the syntax tree); `selfTy = some segs` gives the
segment identifiers of a path self type, `none` a non-path self type. -/

inductive StructFields : Type where
  | named (fields : List (Option String × RustType))
  | notNamed

inductive VariantFields : Type where
  | unnamedOne (ty : RustType)
  | unitV
  | complex

structure EnumVariant : Type where
  ident : String
  fields : VariantFields

structure StructItem : Type where
  ident : String
  fields : StructFields

structure EnumItem : Type where
  ident : String
  variants : List EnumVariant

inductive FnArg : Type where
  | receiver
  | typed (pat : Option String) (ty : RustType)

structure MethodItem : Type where
  ident : String
  attrs : List String
  inputs : List FnArg
  output : Option RustType

inductive ImplMember : Type where
  | fn (m : MethodItem)
  | otherMember

structure ImplItem : Type where
  hyper : Option (Option String)
  selfTy : Option (List String)
  items : List ImplMember

inductive Item : Type where
  | structItem (s : StructItem)
  | enumItem (e : EnumItem)
  | implItem (i : ImplItem)
  | otherItem

/-- `HashMap::insert` on an association list: overwrite the entry if the key
is present (last write wins), otherwise append.  Keys keep insertion order. -/
def hm_insert (m : List (String × String)) (k v : String) : List (String × String) :=
  if m.any (fun p => p.1 == k) then
    m.map (fun p => if p.1 == k then (k, v) else p)
  else
    m ++ [(k, v)]

/-- The named-field loop of the struct arm of `collect_type_definitions`
(`main.rs` lines 195-207): validate each named field, render `name: type`,
thread one `used_types` set through the whole struct. -/
def struct_fields_go : List (Option String × RustType) → List String →
    Except String (List String × List String)
  | [], used_types => .ok ([], used_types)
  | (Option.none, _) :: rest, used_types => struct_fields_go rest used_types
  | (some field_ident, ty) :: rest, used_types => do
      let _ ← validate_name field_ident "Field"
      let field_name := to_kebab_case field_ident
      let (field_type, u) ← rust_type_to_wit ty used_types
      let (rest_strings, u₂) ← struct_fields_go rest u
      .ok (("        " ++ field_name ++ ": " ++ field_type) :: rest_strings, u₂)

/-- The per-variant closure of the enum arm of `collect_type_definitions`
(`main.rs` lines 233-264): validate the variant name, render `name(type)` for
a single unnamed field, bare `name` for a unit variant and for any other
shape; each variant gets a fresh `used_types` set. -/
def enum_variant_render (v : EnumVariant) : Except String String := do
  let _ ← validate_name v.ident "Enum variant"
  match v.fields with
  | .unnamedOne ty => do
      let (t, _) ← rust_type_to_wit ty []
      pure ("        " ++ to_kebab_case v.ident ++ "(" ++ t ++ ")")
  | .unitV => pure ("        " ++ to_kebab_case v.ident)
  | .complex => pure ("        " ++ to_kebab_case v.ident)

/-- The rendered `record` block (`main.rs` line 217). -/
def record_block_text (name : String) (fields : List String) : String :=
  "    record " ++ name ++ " \x7b\n" ++ String.intercalate ",\n" fields ++ "\n    \x7d"

/-- The rendered `variant` block (`main.rs` line 269). -/
def variant_block_text (name : String) (variants : List String) : String :=
  "    variant " ++ name ++ " \x7b\n" ++ String.intercalate ",\n" variants ++ "\n    \x7d"

/-- One iteration of the item loop of `collect_type_definitions`
(`main.rs` lines 179-274): a struct inserts a `record` block only when its
rendered named-field list is nonempty; an enum always inserts a `variant`
block.  Both insertions go through `hm_insert`, so a later declaration whose
name normalizes to an existing key overwrites that entry (last write wins). -/
def collect_step (type_defs : List (String × String)) : Item → Except String (List (String × String))
  | .structItem item_struct => do
      let _ ← validate_name item_struct.ident "Struct"
      let name := to_kebab_case item_struct.ident
      let fields ←
        match item_struct.fields with
        | .named fl => do
            let (field_strings, _) ← struct_fields_go fl []
            pure field_strings
        | .notNamed => pure ([] : List String)
      if fields.isEmpty then
        pure type_defs
      else
        pure (hm_insert type_defs name (record_block_text name fields))
  | .enumItem item_enum => do
      let _ ← validate_name item_enum.ident "Enum"
      let name := to_kebab_case item_enum.ident
      let variants ← item_enum.variants.mapM enum_variant_render
      pure (hm_insert type_defs name (variant_block_text name variants))
  | .implItem _ => pure type_defs
  | .otherItem => pure type_defs

/-- The normalized key a top-level declaration would insert into the
collector's map: structs and enums contribute their kebab-cased identifier,
other items nothing. -/
def decl_kebab_name : Item → Option String
  | .structItem s => some (to_kebab_case s.ident)
  | .enumItem e => some (to_kebab_case e.ident)
  | .implItem _ => Option.none
  | .otherItem => Option.none

/-- Model of `collect_type_definitions` (`main.rs` lines 175-278). -/
def collect_type_definitions (ast : List Item) : Except String (List (String × String)) :=
  ast.foldlM collect_step []

/-- The dependency-discovery scan of the closure loop (`main.rs` lines
439-444): given the popped declaration's rendered text, push every known
declaration key that occurs textually in that text and is not yet processed,
in key order. -/
def referenced_push (all_type_defs : List (String × String)) (type_def : String)
    (processed_types : List String) : List String :=
  (all_type_defs.map Prod.fst).filter
    (fun referenced_type =>
      str_contains type_def referenced_type && !processed_types.contains referenced_type)

/-- Push each name in turn onto the top of the worklist stack (`Vec::push`
with `Vec::pop` popping the most recently pushed element; the list head is the
stack top). -/
def push_all (ks : List String) (w : List String) : List String :=
  ks.foldl (fun w k => k :: w) w

/-- Fuel bound for the closure loop: every iteration either strictly shrinks
the worklist or newly processes one of the (deduplicated) declaration keys,
and each iteration pushes at most `all_type_defs.length` names. -/
def closure_fuel (all_type_defs : List (String × String))
    (worklist processed : List String) : Nat :=
  ((all_type_defs.map Prod.fst).dedup.filter (fun k => !processed.contains k)).length
    * (all_type_defs.length + 1) + worklist.length

/-- The type-closure worklist loop of `generate_interface_wit_content`
(`main.rs` lines 426-448), with explicit fuel.  The accumulator keeps the
popped key next to the appended declaration text; the source's `type_defs`
vector is the second projection.  When the fuel is at least `closure_fuel`
of the state it never runs out (proved below), so the fuelled function is
exactly the source's unguarded loop. -/
def wit_closure_go (all_type_defs : List (String × String)) :
    Nat → List String → List String → List (String × String) → List (String × String)
  | 0, _, _, type_defs => type_defs
  | _ + 1, [], _, type_defs => type_defs
  | fuel + 1, type_name :: rest, processed_types, type_defs =>
    if processed_types.contains type_name then
      wit_closure_go all_type_defs fuel rest processed_types type_defs
    else
      match all_type_defs.lookup type_name with
      | some type_def =>
          wit_closure_go all_type_defs fuel
            (push_all (referenced_push all_type_defs type_def (type_name :: processed_types)) rest)
            (type_name :: processed_types)
            (type_defs ++ [(type_name, type_def)])
      | Option.none => wit_closure_go all_type_defs fuel rest (type_name :: processed_types) type_defs

/-- The closure loop started from the used-type worklist with nothing
processed and nothing accumulated. -/
def wit_closure (all_type_defs : List (String × String)) (types_to_process : List String) :
    List (String × String) :=
  wit_closure_go all_type_defs (closure_fuel all_type_defs types_to_process [] + 1)
    types_to_process [] []

/-- The parameter loop of `generate_interface_wit_content` (`main.rs` lines
322-362): receiver arguments, arguments without an identifier pattern and
arguments named `self` are skipped; every other argument is validated,
normalized and mapped, short-circuiting on the first error. -/
def render_params : List FnArg → List String → Except String (List String × List String)
  | [], used_types => .ok ([], used_types)
  | .receiver :: rest, used_types => render_params rest used_types
  | .typed Option.none _ :: rest, used_types => render_params rest used_types
  | .typed (some param_orig_name) ty :: rest, used_types =>
    if param_orig_name = "self" then render_params rest used_types
    else do
      let _ ← validate_name param_orig_name "Parameter"
      let param_name := to_kebab_case param_orig_name
      let (param_type, u) ← rust_type_to_wit ty used_types
      let (ps, u₂) ← render_params rest u
      .ok ((param_name ++ ": " ++ param_type) :: ps, u₂)

/-- The marker-comment block (`main.rs` lines 377-391), one `//marker` line
per present marker in the fixed order remote, local, http. -/
def attr_comment_str (has_remote has_local has_http : Bool) : String :=
  let attr_comments :=
    (if has_remote then ["    //remote"] else []) ++
    (if has_local then ["    //local"] else []) ++
    (if has_http then ["    //http"] else [])
  if !attr_comments.isEmpty then String.intercalate "\n" attr_comments ++ "\n" else ""

/-- The method loop of `generate_interface_wit_content` (`main.rs` lines
296-413): a method is rendered iff it carries at least one of the markers
remote/local/http; the `used_types` set is threaded through all rendered
methods. -/
def render_methods : List ImplMember → List String → Except String (List String × List String)
  | [], used_types => .ok ([], used_types)
  | .otherMember :: rest, used_types => render_methods rest used_types
  | .fn method :: rest, used_types =>
    let has_remote := method.attrs.contains "remote"
    let has_local := method.attrs.contains "local"
    let has_http := method.attrs.contains "http"
    if has_remote || has_local || has_http then do
      let _ ← validate_name method.ident "Function"
      let kebab_name := to_kebab_case method.ident
      let (params, u) ← render_params method.inputs used_types
      let (return_type, u₂) ←
        match method.output with
        | some ty => do
            let (rt, u₂) ← rust_type_to_wit ty u
            pure ("result<" ++ rt ++ ", string>", u₂)
        | Option.none => pure ("result<unit, string>", u)
      let func_sig :=
        if params.isEmpty then
          attr_comment_str has_remote has_local has_http ++ "    " ++ kebab_name ++
            ": func(target: address) -> " ++ return_type ++ ";"
        else
          attr_comment_str has_remote has_local has_http ++ "    " ++ kebab_name ++
            ": func(target: address, " ++ String.intercalate ", " params ++ ") -> " ++
            return_type ++ ";"
      let (functions, u₃) ← render_methods rest u₂
      .ok (func_sig :: functions, u₃)
    else
      render_methods rest used_types

/-- Model of `generate_interface_wit_content` (`main.rs` lines 281-466). -/
def generate_interface_wit_content (impl_item : ImplItem) (interface_name : String)
    (ast : List Item) : Except String String := do
  let base_name := remove_state_suffix interface_name
  let kebab_interface_name := to_kebab_case base_name
  let (functions, used_types) ← render_methods impl_item.items []
  let all_type_defs ← collect_type_definitions ast
  let type_defs := (wit_closure all_type_defs used_types).map Prod.snd
  if functions.isEmpty then
    pure ""
  else
    let combined_content :=
      if type_defs.isEmpty then
        "    use standard.\x7baddress\x7d;\n\n" ++ String.intercalate "\n" functions
      else
        "    use standard.\x7baddress\x7d;\n\n" ++ String.intercalate "\n\n" type_defs ++
          "\n\n" ++ String.intercalate "\n" functions
    pure ("interface " ++ kebab_interface_name ++ " \x7b\n" ++ combined_content ++ "\n\x7d\n")

/-- The mutable per-project state of the item scan in `process_rust_project`
(`main.rs` lines 488-560) together with the file writes it performs. -/
structure ProcState : Type where
  wit_world : Option String
  interface_name : Option String
  kebab_interface_name : Option String
  writes : List (String × String)

/-- One iteration of the impl-block scan of `process_rust_project`: an impl
with a `#[hyperprocess]` attribute whose `wit_world` extraction succeeds
updates the state, validates the interface name, generates the interface
content and records the file write when the content is nonempty.  A failing
`wit_world` extraction only logs and changes nothing. -/
def process_item (ast : List Item) (st : ProcState) : Item → Except String ProcState
  | .implItem impl_item =>
    match impl_item.hyper with
    | Option.none => pure st
    | some Option.none => pure st
    | some (some world_name) => do
      let st₁ := { st with wit_world := some world_name }
      let interface_name := impl_item.selfTy.map (fun segs =>
        match segs.getLast? with
        | some last_segment => last_segment
        | Option.none => "Unknown")
      let st₂ := { st₁ with interface_name := interface_name }
      match interface_name with
      | Option.none => pure st₂
      | some name => do
        let _ ← validate_name name "Interface"
        let base_name := remove_state_suffix name
        let kebab_name := to_kebab_case base_name
        let st₃ := { st₂ with kebab_interface_name := some kebab_name }
        let content ← generate_interface_wit_content impl_item name ast
        if content.isEmpty then
          pure st₃
        else
          pure { st₃ with writes := st₃.writes ++ [(kebab_name ++ ".wit", content)] }
  | _ => pure st

/-- The item loop of `process_rust_project`: run `process_item` over the
items, stopping at the first error.  The state reached BEFORE the failing
item is returned alongside the error, because the `fs::write` calls already
performed by earlier iterations are disk effects that persist when a later
item's `?` aborts the function (a failing item performs its own write only
after all its fallible steps, so it contributes none). -/
def process_go (ast : List Item) : List Item → ProcState → ProcState × Option String
  | [], st => (st, Option.none)
  | item :: rest, st =>
    match process_item ast st item with
    | .ok st₂ => process_go ast rest st₂
    | .error e => (st, some e)

/-- Model of `process_rust_project` (`main.rs` lines 469-570) from the parsed
syntax tree onwards (file discovery, reading and parsing are external).
Returns the function's `Result` — the export statement, if any, or the
error — TOGETHER with the interface files written before returning; the
writes are outside the `Result` because they persist even when the function
returns `Err`. -/
def process_rust_project (ast : List Item) :
    Except String (Option String) × List (String × String) :=
  match process_go ast ast ⟨Option.none, Option.none, Option.none, []⟩ with
  | (st, some e) => (.error e, st.writes)
  | (st, Option.none) =>
    match st.wit_world, st.interface_name, st.kebab_interface_name with
    | some _, some _, some kebab_iface =>
        (.ok (some ("    export " ++ kebab_iface ++ ";")), st.writes)
    | _, _, _ => (.ok Option.none, st.writes)

/-- One iteration of the per-project loop of `main` (`main.rs` lines
612-623): an `Ok(Some(export))` appends the export statement, `Ok(None)`
contributes nothing, and an `Err` is only printed; the files written by the
project persist in every case.  The accumulator is the pair (collected
export statements, files written so far). -/
def main_step (acc : List String × List (String × String)) (project : List Item) :
    List String × List (String × String) :=
  match process_rust_project project with
  | (.ok (some export_stmt), ws) => (acc.1 ++ [export_stmt], acc.2 ++ ws)
  | (.ok Option.none, ws) => (acc.1, acc.2 ++ ws)
  | (.error _, ws) => (acc.1, acc.2 ++ ws)

/-- The per-project loop of `main` and the final outcome of the run: after
the loop `main` still returns `Ok(())`, i.e. exit code 0, whether or not any
project failed (write failures, which are external I/O, are modelled as
succeeding).  Returns the collected export statements, the files written,
and the process exit code. -/
def main_run (projects : List (List Item)) :
    (List String × List (String × String)) × Nat :=
  (projects.foldl main_step ([], []), 0)

/-- ASCII whitespace test for `str::trim` / `str::split_whitespace`. -/
def is_ws (c : Char) : Bool := c.toNat = 32 || c.toNat = 9 || c.toNat = 10 || c.toNat = 13

/-- Model of Rust `str::trim` (ASCII whitespace). -/
def str_trim (s : String) : String :=
  String.mk ((s.toList.dropWhile is_ws).reverse.dropWhile is_ws).reverse

/-- Model of Rust `str::split_whitespace`: maximal nonempty runs of
non-whitespace characters. -/
def split_ws_go : List Char → List Char → List String
  | [], acc => if acc.isEmpty then [] else [String.mk acc.reverse]
  | c :: rest, acc =>
    if is_ws c then
      if acc.isEmpty then split_ws_go rest [] else String.mk acc.reverse :: split_ws_go rest []
    else
      split_ws_go rest (c :: acc)

/-- Model of Rust `str::split_whitespace`. -/
def split_whitespace (s : String) : List String := split_ws_go s.toList []

/-- Split a character list at every newline, keeping empty pieces. -/
def split_lines_go : List Char → List Char → List (List Char)
  | [], acc => [acc.reverse]
  | c :: rest, acc =>
    if c = '\n' then acc.reverse :: split_lines_go rest [] else split_lines_go rest (c :: acc)

/-- Model of Rust `str::lines`: split at newlines, drop one trailing carriage
return per line, no trailing empty line for a trailing newline. -/
def str_lines (s : String) : List String :=
  let pieces := split_lines_go s.toList []
  let pieces := if pieces.getLast? = some [] then pieces.dropLast else pieces
  pieces.map (fun l => String.mk (if l.getLast? = some '\r' then l.dropLast else l))

/-- The world-name extraction of `main` (`main.rs` lines 639-655): find the
first line whose trimmed form starts with `world `, take the second
whitespace-delimited token of that trimmed line, and strip trailing
occurrences of the two-character pattern `" \x7b"` (space, open brace) from it. -/
def extract_world_name (content : String) : Option String :=
  if str_contains content "world " then
    match (str_lines content).find? (fun line => starts_with (str_trim line) "world ") with
    | some world_line =>
      match (split_whitespace (str_trim world_line))[1]? with
      | some world_name => some (trim_end_matches world_name " \x7b")
      | Option.none => Option.none
    | Option.none => Option.none
  else
    Option.none

/-- The push set that claim C2 describes, read literally: every known
declaration whose RENDERED TEXT contains a textual occurrence of the popped
declaration's normalized name, unless already processed.  (The source's
`referenced_push` scans in the opposite direction: it pushes the keys that
occur in the POPPED declaration's text.) -/
def spec_push (all_type_defs : List (String × String)) (popped_name : String)
    (processed_types : List String) : List String :=
  (all_type_defs.map Prod.fst).filter
    (fun k =>
      (match all_type_defs.lookup k with
       | some txt => str_contains txt popped_name
       | Option.none => false) && !processed_types.contains k)

/-! Theorems.  Each claim Ci of the specification gets one theorem (with a
counterexample theorem first when the claim as stated fails on the source).
Kernel evaluation of the embedded pipeline on concrete syntax trees recurses
deeply through string data, hence the raised recursion limit. -/

set_option maxRecDepth 16000
set_option maxHeartbeats 4000000

/-- C5, evaluation at the failing input: the source extracts the second
whitespace-delimited token and then strips trailing occurrences of the
two-character pattern `" \x7b"`; since a whitespace-delimited token cannot
contain a space, the stripping never applies, so the header `world foo\x7b`
yields the name `foo\x7b` — not `foo` as the claim states.  (With the brace
separated, `world foo \x7b`, the token itself is already `foo`.) -/
theorem claim_C5_eval :
    extract_world_name "world foo\x7b" = some "foo\x7b" ∧
    extract_world_name "world foo \x7b" = some "foo" ∧
    trim_end_matches "foo\x7b" " \x7b" = "foo\x7b" := by
  refine ⟨by decide, by decide, by decide⟩

/-- The impl block of claim C10: `#[hyperprocess]` with a readable
`wit_world`, self type named exactly `State`, and one `#[remote]` method
`doit` with no parameters and no return type. -/
def c10_impl : ImplItem :=
  ⟨some (some "w"), some ["State"],
   [.fn ⟨"doit", ["remote"], [], Option.none⟩]⟩

/-- The exact interface text the embedded pipeline generates for `c10_impl`. -/
def c10_content : String :=
  "interface  \x7b\n    use standard.\x7baddress\x7d;\n\n    //remote\n    doit: func(target: address) -> result<unit, string>;\n\x7d\n"

/-- C10: for an annotated impl block whose self type is named exactly
`State`, suffix stripping yields the empty string, the kebab-case interface
name is empty, the generated text begins with `interface  \x7b` (two spaces),
and the output file is named `.wit`. -/
theorem claim_C10 :
    remove_state_suffix "State" = "" ∧
    to_kebab_case "" = "" ∧
    process_rust_project [.implItem c10_impl] =
      (.ok (some "    export ;"), [(".wit", c10_content)]) ∧
    starts_with c10_content "interface  \x7b" = true := by
  refine ⟨by decide, by decide, by decide, by decide⟩

/-- C6: each of the eight primitive source types maps to exactly the fixed
spelling of the table, for any generic arguments attached to the primitive
segment and any incoming used-types set, which is returned unchanged; and no
two primitives share an output spelling. -/
theorem claim_C6 :
    (∀ (u : List String) (args : PathArgs),
      rust_type_to_wit (.path (.cons "i32" args .nil)) u = .ok ("s32", u) ∧
      rust_type_to_wit (.path (.cons "u32" args .nil)) u = .ok ("u32", u) ∧
      rust_type_to_wit (.path (.cons "i64" args .nil)) u = .ok ("s64", u) ∧
      rust_type_to_wit (.path (.cons "u64" args .nil)) u = .ok ("u64", u) ∧
      rust_type_to_wit (.path (.cons "f32" args .nil)) u = .ok ("f32", u) ∧
      rust_type_to_wit (.path (.cons "f64" args .nil)) u = .ok ("f64", u) ∧
      rust_type_to_wit (.path (.cons "String" args .nil)) u = .ok ("string", u) ∧
      rust_type_to_wit (.path (.cons "bool" args .nil)) u = .ok ("bool", u)) ∧
    (["s32", "u32", "s64", "u64", "f32", "f64", "string", "bool"] : List String).Nodup := by
  constructor
  · intro u args
    refine ⟨?_, ?_, ?_, ?_, ?_, ?_, ?_, ?_⟩ <;>
      simp only [rust_type_to_wit.eq_1, path_to_wit.eq_2, seg_to_wit.eq_1, seg_to_wit.eq_2,
        seg_to_wit.eq_3, seg_to_wit.eq_4, seg_to_wit.eq_5, seg_to_wit.eq_6, seg_to_wit.eq_7,
        seg_to_wit.eq_8]
  · decide

/-- The project of claim C1's counterexample: a first impl block (`FooState`)
that validates, generates and writes its interface file, followed by a second
impl block whose self type `Bad1State` contains a digit, so interface-name
validation fails AFTER the first file was already written. -/
def c1_bad_project : List Item :=
  [.implItem ⟨some (some "w"), some ["FooState"],
     [.fn ⟨"doit", ["remote"], [], Option.none⟩]⟩,
   .implItem ⟨some (some "w"), some ["Bad1State"], []⟩]

/-- The interface file the first impl block of `c1_bad_project` writes. -/
def c1_foo_content : String :=
  "interface foo \x7b\n    use standard.\x7baddress\x7d;\n\n    //remote\n    doit: func(target: address) -> result<unit, string>;\n\x7d\n"

/-- C1, counterexample: a run containing a project whose raw interface
identifier `Bad1State` fails naming validation (it contains a digit) does
NOT abort: `process_rust_project` returns the naming error after having
already written `foo.wit` for the earlier impl block, the main loop only
reports the error and continues, and the run finishes with exit code 0 —
the claim says the entire run aborts immediately with a non-zero outcome. -/
theorem claim_C1_counterexample :
    process_rust_project c1_bad_project =
      (.error "Error: Interface name 'Bad1State' contains numbers, which is not allowed",
       [("foo.wit", c1_foo_content)]) ∧
    main_run [c1_bad_project] = (([], [("foo.wit", c1_foo_content)]), 0) := by
  refine ⟨by decide, by decide⟩

/-- One step of the per-project loop only ever appends to the accumulated
export statements and writes. -/
lemma main_step_shift (acc : List String × List (String × String)) (p : List Item) :
    main_step acc p =
      (acc.1 ++ (main_step ([], []) p).1, acc.2 ++ (main_step ([], []) p).2) := by
  unfold main_step
  rcases hp : process_rust_project p with ⟨r, w⟩
  cases r with
  | ok o =>
    cases o with
    | some ex => simp
    | none => simp
  | error e => simp

/-- The per-project loop from any accumulator equals the loop from the empty
accumulator with the prior accumulator prepended. -/
lemma main_fold_shift : ∀ (projects : List (List Item))
    (acc : List String × List (String × String)),
    projects.foldl main_step acc =
      (acc.1 ++ (projects.foldl main_step ([], [])).1,
       acc.2 ++ (projects.foldl main_step ([], [])).2) := by
  intro projects
  induction projects with
  | nil => intro acc; simp
  | cons p rest ih =>
    intro acc
    rw [List.foldl_cons, List.foldl_cons]
    rw [main_step_shift acc p, main_step_shift ([], []) p]
    rw [ih, ih ((([] : List String) ++ (main_step ([], []) p).1,
      ([] : List (String × String)) ++ (main_step ([], []) p).2))]
    simp [List.append_assoc]

/-- C1, amended: a naming validation failure aborts only the failing
project's processing — that project contributes no export statement and the
remaining projects are processed as if it were absent, the interface files
it wrote before the failure persist on disk, and the run still finishes
with exit code 0 after reporting the error. -/
theorem claim_C1_amended (pre post : List (List Item)) (bad : List Item) (e : String)
    (h : (process_rust_project bad).1 = .error e) :
    (main_run (pre ++ bad :: post)).1.1 = (main_run (pre ++ post)).1.1 ∧
    (main_run (pre ++ bad :: post)).1.2 =
      (main_run pre).1.2 ++ (process_rust_project bad).2 ++ (main_run post).1.2 ∧
    (main_run (pre ++ bad :: post)).2 = 0 := by
  rcases hp : process_rust_project bad with ⟨r, w⟩
  have hr : r = .error e := by
    have := h
    rw [hp] at this
    exact this
  subst hr
  have hstep : ∀ (acc : List String × List (String × String)),
      main_step acc bad = (acc.1, acc.2 ++ w) := by
    intro acc
    unfold main_step
    rw [hp]
  unfold main_run
  rw [List.foldl_append, List.foldl_append, List.foldl_cons, hstep]
  rw [main_fold_shift post ((List.foldl main_step ([], []) pre).1,
    (List.foldl main_step ([], []) pre).2 ++ w)]
  rw [main_fold_shift post (List.foldl main_step ([], []) pre)]
  refine ⟨rfl, ?_, rfl⟩
  simp [List.append_assoc]

/-- Witness for C1's amended theorem at the concrete failing project. -/
theorem claim_C1_witness :
    (main_run ([] ++ c1_bad_project :: [])).1.1 = (main_run ([] ++ [])).1.1 ∧
    (main_run ([] ++ c1_bad_project :: [])).1.2 =
      (main_run []).1.2 ++ (process_rust_project c1_bad_project).2 ++ (main_run []).1.2 ∧
    (main_run ([] ++ c1_bad_project :: [])).2 = 0 :=
  claim_C1_amended [] [] c1_bad_project
    "Error: Interface name 'Bad1State' contains numbers, which is not allowed" (by decide)

/-- `Char.ofNat` of a valid code point reproduces the code point. -/
lemma char_toNat_ofNat {n : Nat} (h : n.isValidChar) : (Char.ofNat n).toNat = n := by
  unfold Char.ofNat
  rw [dif_pos h]
  rfl

/-- ASCII-lowercasing an uppercase letter yields a non-uppercase character. -/
lemma lower_char_not_upper (c : Char) : is_uppercase (lower_char c) = false := by
  unfold lower_char
  by_cases h : is_uppercase c = true
  · rw [if_pos h]
    have hc : 65 ≤ c.toNat ∧ c.toNat ≤ 90 := by
      simpa [is_uppercase, Bool.and_eq_true, decide_eq_true_eq] using h
    have hv : (c.toNat + 32).isValidChar := Or.inl (by omega)
    simp only [is_uppercase, char_toNat_ofNat hv, Bool.and_eq_false_iff,
      decide_eq_false_iff_not]
    omega
  · rw [if_neg h]
    cases hb : is_uppercase c with
    | false => rfl
    | true => exact absurd hb h

/-- Every character emitted by the case-transition loop is non-uppercase: the
loop emits hyphens, lowered versions of uppercase characters, and unchanged
non-uppercase characters. -/
lemma kebab_go_no_upper : ∀ (prev : Option Char) (l : List Char) (c : Char),
    c ∈ kebab_go prev l → is_uppercase c = false := by
  intro prev l
  induction l generalizing prev with
  | nil => intro c hc; simp [kebab_go] at hc
  | cons a rest ih =>
    intro c hc
    rw [kebab_go.eq_2] at hc
    by_cases ha : is_uppercase a = true
    · rw [if_pos ha] at hc
      split at hc
      · rcases List.mem_cons.mp hc with h1 | h2
        · subst h1; decide
        · rcases List.mem_cons.mp h2 with h3 | h4
          · subst h3; exact lower_char_not_upper a
          · exact ih (some a) c h4
      · rcases List.mem_cons.mp hc with h1 | h2
        · subst h1; exact lower_char_not_upper a
        · exact ih (some a) c h2
    · rw [if_neg ha] at hc
      rcases List.mem_cons.mp hc with h1 | h2
      · subst h1
        simpa using ha
      · exact ih (some a) c h2

/-- C4, counterexample: the claim fails on names containing underscores.  The
underscore branch of `to_kebab_case` only replaces underscores with hyphens
and never lowercases, so `Foo_bar` normalizes to `Foo-bar`, which contains
the uppercase letter `F`. -/
theorem claim_C4_counterexample :
    to_kebab_case "Foo_bar" = "Foo-bar" ∧
    ¬ ((to_kebab_case "Foo_bar").toList.all (fun c => !is_uppercase c) = true) := by
  refine ⟨by decide, by decide⟩

/-- C4, amended: for every raw name NOT containing an underscore, the
normalized form contains no uppercase letter; a name containing an underscore
only has its underscores replaced by hyphens, with every other character
(including uppercase letters) preserved. -/
theorem claim_C4_amended (s : String) (h : s.toList.contains '_' = false) :
    (to_kebab_case s).toList.all (fun c => !is_uppercase c) = true := by
  have hnm : ('_' : Char) ∉ s.toList := by simpa using h
  unfold to_kebab_case
  rw [if_neg (by simpa using hnm)]
  show (kebab_go Option.none s.toList).all (fun c => !is_uppercase c) = true
  rw [List.all_eq_true]
  intro c hc
  simp only [Bool.not_eq_true']
  exact kebab_go_no_upper Option.none s.toList c hc

/-- Witness for C4's amended theorem at the concrete input `FooBar`. -/
theorem claim_C4_witness :
    (to_kebab_case "FooBar").toList.all (fun c => !is_uppercase c) = true :=
  claim_C4_amended "FooBar" (by decide)

/-- On input consisting only of lowercase letters and hyphens the
case-transition loop is the identity. -/
lemma kebab_go_id : ∀ (prev : Option Char) (l : List Char),
    (∀ c ∈ l, is_lowercase c = true ∨ c = '-') → kebab_go prev l = l := by
  intro prev l
  induction l generalizing prev with
  | nil => intro _; rfl
  | cons a rest ih =>
    intro h
    have ha : is_uppercase a = false := by
      rcases h a (by simp) with hl | hh
      · simp only [is_lowercase, Bool.and_eq_true, decide_eq_true_eq] at hl
        simp only [is_uppercase, Bool.and_eq_false_iff, decide_eq_false_iff_not]
        omega
      · subst hh; decide
    rw [kebab_go.eq_2, if_neg (by simp [ha])]
    rw [ih (some a) (fun c hc => h c (by simp [hc]))]

/-- C8: normalization is idempotent on its own output — a name that is
already a hyphen-separated sequence of lowercase letters (every character a
lowercase letter or a hyphen) is returned unchanged, so normalizing twice
equals normalizing once on such inputs. -/
theorem claim_C8 (s : String) (h : ∀ c ∈ s.toList, is_lowercase c = true ∨ c = '-') :
    to_kebab_case s = s ∧ to_kebab_case (to_kebab_case s) = to_kebab_case s := by
  have hnm : ('_' : Char) ∉ s.toList := by
    intro hm
    rcases h _ hm with hl | hh
    · exact absurd hl (by decide)
    · exact absurd hh (by decide)
  have hid : to_kebab_case s = s := by
    unfold to_kebab_case
    rw [if_neg (by simpa using hnm)]
    rw [kebab_go_id Option.none s.toList h]
    cases s
    rfl
  exact ⟨hid, by rw [hid, hid]⟩

/-- Witness for C8 at the concrete already-normalized name `line-item`. -/
theorem claim_C8_witness :
    to_kebab_case "line-item" = "line-item" ∧
    to_kebab_case (to_kebab_case "line-item") = to_kebab_case "line-item" :=
  claim_C8 "line-item" (by decide)

/-- A struct shape with zero named fields: a named-field list whose entries
all lack an identifier (in particular the empty one), or a unit/tuple struct. -/
def zero_named_fields : StructFields → Bool
  | .named fl => fl.all (fun f => f.1.isNone)
  | .notNamed => true

/-- The field loop renders nothing when no field has an identifier. -/
lemma struct_fields_go_none : ∀ (fl : List (Option String × RustType)) (u : List String),
    fl.all (fun f => f.1.isNone) = true → struct_fields_go fl u = .ok ([], u) := by
  intro fl
  induction fl with
  | nil => intro u _; rfl
  | cons f rest ih =>
    intro u h
    simp only [List.all_cons, Bool.and_eq_true] at h
    obtain ⟨h1, h2⟩ := h
    match f, h1 with
    | (Option.none, ty), _ => exact ih u h2

/-- Looking up the inserted key always finds the inserted value. -/
lemma lookup_hm_insert (m : List (String × String)) (k v : String) :
    (hm_insert m k v).lookup k = some v := by
  induction m with
  | nil => simp [hm_insert, List.lookup]
  | cons p rest ih =>
    by_cases hk : p.1 == k
    · simp only [hm_insert, List.any_cons, hk, Bool.true_or, if_pos, List.map_cons, if_true]
      simp [List.lookup]
    · simp only [hm_insert, List.any_cons, hk, Bool.false_or, List.map_cons, if_neg,
        Bool.false_eq_true, false_and] at ih ⊢
      have hk2 : (k == p.1) = false := by
        apply beq_eq_false_iff_ne.mpr
        intro hkk
        subst hkk
        exact hk (beq_self_eq_true _)
      by_cases ha : rest.any (fun p => p.1 == k)
      · simp only [ha, if_true, ite_true]
        rw [if_neg (by simp [hk])]
        simp only [List.lookup, hk2]
        simpa [hm_insert, ha] using ih
      · simp only [Bool.not_eq_true] at ha
        simp only [ha, Bool.false_eq_true, if_false, ite_false]
        simp only [List.cons_append, List.lookup, hk2]
        simpa [hm_insert, ha] using ih

/-- Binding a successful `Except` value applies the continuation. -/
lemma except_bind_ok {α β : Type} (a : α) (f : α → Except String β) :
    ((Except.ok a : Except String α) >>= f) = f a := rfl

/-- Binding a failed `Except` value propagates the error. -/
lemma except_bind_err {α β : Type} (e : String) (f : α → Except String β) :
    ((Except.error e : Except String α) >>= f) = .error e := rfl

/-- A collector step on a struct with zero named fields returns the map
unchanged. -/
lemma collect_step_struct_empty (m : List (String × String)) (s : StructItem)
    (m₂ : List (String × String)) (hz : zero_named_fields s.fields = true)
    (hok : collect_step m (.structItem s) = .ok m₂) : m₂ = m := by
  rw [collect_step.eq_1] at hok
  cases hv : validate_name s.ident "Struct" with
  | error e => rw [hv] at hok; exact absurd hok (by simp [Bind.bind, Except.bind])
  | ok _ =>
    rw [hv] at hok
    cases hf : s.fields with
    | named fl =>
      rw [hf] at hok
      rw [hf] at hz
      simp only [zero_named_fields] at hz
      simp only [Bind.bind, Except.bind] at hok
      rw [struct_fields_go_none fl [] hz] at hok
      simp only [pure, Except.pure, List.isEmpty_nil, Except.ok.injEq, ite_true] at hok
      exact hok.symm
    | notNamed =>
      rw [hf] at hok
      simp only [Bind.bind, Except.bind, pure, Except.pure, List.isEmpty_nil,
        Except.ok.injEq, ite_true] at hok
      exact hok.symm

/-- A successful collector step on an enum inserts exactly the enum's variant
block under its normalized name. -/
lemma collect_step_enum_eq (m m₂ : List (String × String)) (e : EnumItem)
    (variants : List String)
    (hok : collect_step m (.enumItem e) = .ok m₂)
    (hmv : e.variants.mapM enum_variant_render = .ok variants) :
    m₂ = hm_insert m (to_kebab_case e.ident)
      (variant_block_text (to_kebab_case e.ident) variants) := by
  rw [collect_step.eq_2] at hok
  cases hv : validate_name e.ident "Enum" with
  | error err => rw [hv] at hok; exact absurd hok (by simp [Bind.bind, Except.bind])
  | ok _ =>
    rw [hv, hmv] at hok
    simp only [Bind.bind, Except.bind, pure, Except.pure, Except.ok.injEq] at hok
    exact hok.symm

/-- Overwriting the entries of a DIFFERENT key leaves a lookup unchanged. -/
lemma lookup_map_overwrite (k k₂ v : String) (hbeq : (k == k₂) = false) :
    ∀ (l : List (String × String)),
      (l.map (fun p => if p.1 == k₂ then (k₂, v) else p)).lookup k = l.lookup k := by
  intro l
  induction l with
  | nil => rfl
  | cons p rest ih =>
    obtain ⟨a, b⟩ := p
    rw [List.map_cons]
    by_cases ha : (a == k₂) = true
    · rw [if_pos ha]
      have hka : (k == a) = false := by
        rw [beq_iff_eq] at ha
        subst ha
        exact hbeq
      simp only [List.lookup, hbeq, hka]
      exact ih
    · rw [if_neg ha]
      by_cases hk : (k == a) = true
      · simp only [List.lookup, hk]
      · have hk2 : (k == a) = false := by simpa using hk
        simp only [List.lookup, hk2]
        exact ih

/-- Appending an entry for a DIFFERENT key leaves a lookup unchanged. -/
lemma lookup_append_ne (k k₂ v : String) (hbeq : (k == k₂) = false) :
    ∀ (l : List (String × String)), (l ++ [(k₂, v)]).lookup k = l.lookup k := by
  intro l
  induction l with
  | nil => simp only [List.nil_append, List.lookup, hbeq]
  | cons p rest ih =>
    obtain ⟨a, b⟩ := p
    by_cases hk : (k == a) = true
    · simp only [List.cons_append, List.lookup, hk]
    · simp only [Bool.not_eq_true] at hk
      simp only [List.cons_append, List.lookup, hk, Bool.false_eq_true]
      exact ih

/-- Inserting under a different key leaves a lookup unchanged. -/
lemma lookup_hm_insert_ne (m : List (String × String)) (k k₂ v : String) (hne : k₂ ≠ k) :
    (hm_insert m k₂ v).lookup k = m.lookup k := by
  have hbeq : (k == k₂) = false := beq_eq_false_iff_ne.mpr (fun hq => hne hq.symm)
  unfold hm_insert
  by_cases ha : m.any (fun p => p.1 == k₂) = true
  · rw [if_pos ha]
    exact lookup_map_overwrite k k₂ v hbeq m
  · rw [if_neg ha]
    exact lookup_append_ne k k₂ v hbeq m

/-- A collector step on an item whose normalized declaration name differs
from `k` (or that declares nothing) leaves the binding of `k` unchanged. -/
lemma collect_step_preserve (k : String) (m m₂ : List (String × String)) (it : Item)
    (h : collect_step m it = .ok m₂) (hn : decl_kebab_name it ≠ some k) :
    m₂.lookup k = m.lookup k := by
  cases it with
  | structItem s =>
    have hne : to_kebab_case s.ident ≠ k := fun hq => hn (by simp [decl_kebab_name, hq])
    rw [collect_step.eq_1] at h
    cases hv : validate_name s.ident "Struct" with
    | error e => rw [hv] at h; exact absurd h (by simp [Bind.bind, Except.bind])
    | ok _ =>
      rw [hv] at h
      cases hf : s.fields with
      | named fl =>
        rw [hf] at h
        simp only [Bind.bind, Except.bind] at h
        cases hsf : struct_fields_go fl [] with
        | error e => rw [hsf] at h; exact absurd h (by simp)
        | ok pr =>
          obtain ⟨fs, u⟩ := pr
          rw [hsf] at h
          simp only [Bind.bind, Except.bind, pure, Except.pure] at h
          by_cases hemp : fs.isEmpty = true
          · rw [if_pos hemp] at h
            injection h with h2
            rw [← h2]
          · rw [if_neg hemp] at h
            injection h with h2
            rw [← h2]
            exact lookup_hm_insert_ne m k (to_kebab_case s.ident) _ hne
      | notNamed =>
        rw [hf] at h
        simp only [Bind.bind, Except.bind, pure, Except.pure, List.isEmpty_nil,
          Except.ok.injEq, ite_true] at h
        rw [h]
  | enumItem e =>
    have hne : to_kebab_case e.ident ≠ k := fun hq => hn (by simp [decl_kebab_name, hq])
    cases hm : e.variants.mapM enum_variant_render with
    | error err =>
      rw [collect_step.eq_2] at h
      cases hv : validate_name e.ident "Enum" with
      | error err2 => rw [hv] at h; exact absurd h (by simp [Bind.bind, Except.bind])
      | ok _ =>
        rw [hv, hm] at h
        exact absurd h (by simp [Bind.bind, Except.bind])
    | ok variants =>
      rw [collect_step_enum_eq m m₂ e variants h hm]
      exact lookup_hm_insert_ne m k (to_kebab_case e.ident) _ hne
  | implItem i =>
    rw [collect_step.eq_3] at h
    simp only [pure, Except.pure, Except.ok.injEq] at h
    rw [h]
  | otherItem =>
    rw [collect_step.eq_4] at h
    simp only [pure, Except.pure, Except.ok.injEq] at h
    rw [h]

/-- The collector fold over an appended list is the fold over the first part
bound into the fold over the second. -/
lemma collect_fold_append : ∀ (l₁ l₂ : List Item) (m : List (String × String)),
    (l₁ ++ l₂).foldlM collect_step m =
      (l₁.foldlM collect_step m >>= fun m₁ => l₂.foldlM collect_step m₁) := by
  intro l₁
  induction l₁ with
  | nil =>
    intro l₂ m
    rw [List.nil_append, List.foldlM_nil]
    rfl
  | cons it t ih =>
    intro l₂ m
    rw [List.cons_append, List.foldlM_cons, List.foldlM_cons]
    cases hs : collect_step m it with
    | error e => rfl
    | ok m₂ =>
      rw [except_bind_ok, except_bind_ok]
      exact ih l₂ m₂

/-- Folding the collector over items none of which declares the key `k`
leaves the binding of `k` unchanged. -/
lemma collect_fold_preserve (k : String) : ∀ (items : List Item)
    (m m' : List (String × String)),
    items.foldlM collect_step m = .ok m' →
    (∀ it ∈ items, decl_kebab_name it ≠ some k) →
    m'.lookup k = m.lookup k := by
  intro items
  induction items with
  | nil =>
    intro m m' h _
    rw [List.foldlM_nil] at h
    simp only [pure, Except.pure, Except.ok.injEq] at h
    rw [← h]
  | cons it rest ih =>
    intro m m' h hn
    rw [List.foldlM_cons] at h
    cases hs : collect_step m it with
    | error e => rw [hs] at h; exact absurd h (by simp [Bind.bind, Except.bind])
    | ok m₂ =>
      rw [hs, except_bind_ok] at h
      rw [ih m₂ m' h (fun x hx => hn x (List.mem_cons_of_mem _ hx))]
      exact collect_step_preserve k m m₂ it hs (hn it (List.mem_cons_self _ _))

/-- The declaration map of C2's counterexample: `qq`'s rendered text mentions
`zz`; `zz`'s rendered text mentions no other key. -/
def c2_defs : List (String × String) :=
  [("qq", "    record qq \x7b\n        x: zz\n    \x7d"),
   ("zz", "    record zz \x7b\n        flag: bool\n    \x7d")]

/-- The rendered declaration of `zz` in `c2_defs`. -/
def c2_zz_text : String := "    record zz \x7b\n        flag: bool\n    \x7d"

/-- C2, counterexample: when the traversal pops `zz` (just marked processed),
the other known declaration `qq` has rendered text containing `zz`, so the
claim as stated requires `qq` to be pushed; but the source scans the POPPED
declaration's text for occurrences of the other keys — `zz`'s text contains
no other key, so nothing is pushed. -/
theorem claim_C2_counterexample :
    c2_defs.lookup "zz" = some c2_zz_text ∧
    "qq" ∈ spec_push c2_defs "zz" ["zz"] ∧
    "qq" ∉ referenced_push c2_defs c2_zz_text ["zz"] := by
  refine ⟨by decide, by decide, by decide⟩

/-- C2, amended: when the popped type name is found in the declaration map,
the names pushed onto the worklist are exactly the known declaration keys
that occur textually in the POPPED declaration's rendered text and are not
yet processed (the popped name itself having just been marked processed). -/
theorem claim_C2_amended :
    ∀ (all_type_defs : List (String × String)) (fuel : Nat) (type_name : String)
      (rest processed : List String) (acc : List (String × String)) (type_def : String),
      processed.contains type_name = false →
      all_type_defs.lookup type_name = some type_def →
      (wit_closure_go all_type_defs (fuel + 1) (type_name :: rest) processed acc =
        wit_closure_go all_type_defs fuel
          (push_all (referenced_push all_type_defs type_def (type_name :: processed)) rest)
          (type_name :: processed) (acc ++ [(type_name, type_def)])) ∧
      (∀ k, k ∈ referenced_push all_type_defs type_def (type_name :: processed) ↔
        (k ∈ all_type_defs.map Prod.fst ∧ str_contains type_def k = true ∧
          (type_name :: processed).contains k = false)) := by
  intro all_type_defs fuel type_name rest processed acc type_def hproc hlook
  constructor
  · rw [wit_closure_go.eq_3, if_neg (by simpa using hproc), hlook]
  · intro k
    simp only [referenced_push, List.mem_filter, Bool.and_eq_true, Bool.not_eq_true']

/-- Witness for C2's amended theorem at the counterexample map, popping `zz`
with nothing else processed. -/
theorem claim_C2_witness :
    (wit_closure_go c2_defs 1 ["zz"] [] [] =
      wit_closure_go c2_defs 0 (push_all (referenced_push c2_defs c2_zz_text ["zz"]) [])
        ["zz"] ([] ++ [("zz", c2_zz_text)])) ∧
    ("qq" ∈ referenced_push c2_defs c2_zz_text ["zz"] ↔
      ("qq" ∈ c2_defs.map Prod.fst ∧ str_contains c2_zz_text "qq" = true ∧
        (["zz"] : List String).contains "qq" = false)) :=
  ⟨(claim_C2_amended c2_defs 0 "zz" [] [] [] c2_zz_text (by decide) (by decide)).1,
   (claim_C2_amended c2_defs 0 "zz" [] [] [] c2_zz_text (by decide) (by decide)).2 "qq"⟩

/-- A successful lookup means the key occurs among the map's keys. -/
lemma mem_keys_of_lookup : ∀ {defs : List (String × String)} {k v : String},
    defs.lookup k = some v → k ∈ defs.map Prod.fst := by
  intro defs
  induction defs with
  | nil => intro k v h; simp [List.lookup] at h
  | cons p rest ih =>
    intro k v h
    obtain ⟨a, b⟩ := p
    rw [List.lookup] at h
    simp only [List.map_cons]
    by_cases hk : (k == a) = true
    · rw [beq_iff_eq.mp hk]
      exact List.mem_cons_self _ _
    · simp only [Bool.not_eq_true] at hk
      simp only [hk] at h
      exact List.mem_cons_of_mem _ (ih h)

/-- Pushing a batch of names grows the worklist by the batch size. -/
lemma push_all_length : ∀ (ks w : List String), (push_all ks w).length = ks.length + w.length := by
  intro ks
  induction ks with
  | nil => intro w; simp [push_all]
  | cons a t ih =>
    intro w
    show (push_all t (a :: w)).length = (a :: t).length + w.length
    rw [ih (a :: w)]
    simp
    omega

/-- Excluding one more name can only shrink the not-yet-processed filter. -/
lemma length_filter_notcons_le (l : List String) (p : List String) (x : String) :
    (l.filter (fun k => !(x :: p).contains k)).length ≤
      (l.filter (fun k => !p.contains k)).length := by
  apply List.Sublist.length_le
  apply List.monotone_filter_right
  intro a ha
  simp only [Bool.not_eq_true', List.contains_cons, Bool.or_eq_false_iff] at ha
  simp only [Bool.not_eq_true', ha.2]

/-- Excluding a name that is in the list and not yet excluded strictly
shrinks the not-yet-processed filter. -/
lemma length_filter_notcons_lt (l : List String) (p : List String) (x : String)
    (hx : x ∈ l) (hpx : p.contains x = false) :
    (l.filter (fun k => !(x :: p).contains k)).length <
      (l.filter (fun k => !p.contains k)).length := by
  have himp : ∀ a, (fun k => !(x :: p).contains k) a = true →
      (fun k => !p.contains k) a = true := by
    intro a ha
    simp only [Bool.not_eq_true', List.contains_cons, Bool.or_eq_false_iff] at ha
    simp only [Bool.not_eq_true', ha.2]
  have hsub := List.monotone_filter_right l himp
  rcases Nat.eq_or_lt_of_le hsub.length_le with heq | hlt
  · exfalso
    have hql : x ∈ l.filter (fun k => !p.contains k) :=
      List.mem_filter.mpr ⟨hx, by simpa using hpx⟩
    rw [← hsub.eq_of_length heq] at hql
    have hcontra := (List.mem_filter.mp hql).2
    simp only [List.contains_cons, beq_self_eq_true, Bool.true_or, Bool.not_true] at hcontra
    exact Bool.false_ne_true hcontra
  · exact hlt

/-- The loop measure strictly drops when the popped name is merely skipped. -/
lemma closure_fuel_tail (defs : List (String × String)) (x : String)
    (rest processed : List String) :
    closure_fuel defs rest processed < closure_fuel defs (x :: rest) processed := by
  unfold closure_fuel
  simp only [List.length_cons]
  omega

/-- The loop measure strictly drops when the popped name is marked processed
but absent from the declaration map. -/
lemma closure_fuel_mark (defs : List (String × String)) (x : String)
    (rest processed : List String) :
    closure_fuel defs rest (x :: processed) < closure_fuel defs (x :: rest) processed := by
  unfold closure_fuel
  have hmono := length_filter_notcons_le ((defs.map Prod.fst).dedup) processed x
  have hmul := Nat.mul_le_mul_right (defs.length + 1) hmono
  simp only [List.length_cons]
  omega

/-- The loop measure strictly drops when the popped name is found in the
declaration map: one key becomes processed and at most `defs.length` new
names are pushed. -/
lemma closure_fuel_found (defs : List (String × String)) (x : String)
    (rest processed : List String) (type_def : String)
    (hlook : defs.lookup x = some type_def) (hx : processed.contains x = false) :
    closure_fuel defs (push_all (referenced_push defs type_def (x :: processed)) rest)
      (x :: processed) < closure_fuel defs (x :: rest) processed := by
  unfold closure_fuel
  have hmem : x ∈ (defs.map Prod.fst).dedup := List.mem_dedup.mpr (mem_keys_of_lookup hlook)
  have hstrict := length_filter_notcons_lt ((defs.map Prod.fst).dedup) processed x hmem hx
  have hpush : (referenced_push defs type_def (x :: processed)).length ≤ defs.length := by
    unfold referenced_push
    calc (List.filter _ (defs.map Prod.fst)).length
        ≤ (defs.map Prod.fst).length := List.length_filter_le _ _
      _ = defs.length := List.length_map _ _
  have hmul := Nat.mul_le_mul_right (defs.length + 1) hstrict
  rw [push_all_length]
  simp only [List.length_cons]
  rw [Nat.succ_mul] at hmul
  omega

/-- Above the `closure_fuel` measure, the result of the fuelled closure loop
does not depend on the fuel: the loop reaches its natural end. -/
lemma wit_closure_go_fuel_add (defs : List (String × String)) :
    ∀ (fuel k : Nat) (wl processed : List String) (acc : List (String × String)),
      closure_fuel defs wl processed < fuel →
      wit_closure_go defs fuel wl processed acc =
        wit_closure_go defs (fuel + k) wl processed acc := by
  intro fuel
  induction fuel with
  | zero => intro k wl p acc h; exact absurd h (Nat.not_lt_zero _)
  | succ f ih =>
    intro k wl processed acc h
    have hstep : f + 1 + k = (f + k) + 1 := by omega
    cases wl with
    | nil => rw [wit_closure_go.eq_2, hstep, wit_closure_go.eq_2]
    | cons x rest =>
      rw [wit_closure_go.eq_3, hstep, wit_closure_go.eq_3]
      by_cases hc : processed.contains x = true
      · rw [if_pos hc, if_pos hc]
        have hm := closure_fuel_tail defs x rest processed
        exact ih k rest processed acc (by omega)
      · rw [if_neg hc, if_neg hc]
        cases hl : defs.lookup x with
        | some td =>
          simp only [hl]
          have hm := closure_fuel_found defs x rest processed td hl
            (by cases hcc : processed.contains x with
                | true => exact absurd hcc hc
                | false => rfl)
          exact ih k _ _ _ (by omega)
        | none =>
          simp only [hl]
          have hm := closure_fuel_mark defs x rest processed
          exact ih k _ _ _ (by omega)

/-- The closure loop appends a pair only when its key was just moved from
unprocessed to processed, so the appended keys stay distinct. -/
lemma wit_closure_go_nodup (defs : List (String × String)) :
    ∀ (fuel : Nat) (wl processed : List String) (acc : List (String × String)),
      (acc.map Prod.fst).Nodup → (∀ pr ∈ acc, pr.1 ∈ processed) →
      ((wit_closure_go defs fuel wl processed acc).map Prod.fst).Nodup := by
  intro fuel
  induction fuel with
  | zero => intro wl p acc h1 _; rw [wit_closure_go.eq_1]; exact h1
  | succ f ih =>
    intro wl processed acc h1 h2
    cases wl with
    | nil => rw [wit_closure_go.eq_2]; exact h1
    | cons x rest =>
      rw [wit_closure_go.eq_3]
      by_cases hc : processed.contains x = true
      · rw [if_pos hc]
        exact ih rest processed acc h1 h2
      · rw [if_neg hc]
        cases hl : defs.lookup x with
        | some td =>
          simp only [hl]
          apply ih
          · have hx : x ∉ acc.map Prod.fst := by
              intro hmem
              rcases List.mem_map.mp hmem with ⟨pr, hpr, hfst⟩
              have hxp : pr.1 ∈ processed := h2 pr hpr
              rw [hfst] at hxp
              exact hc (by simpa using hxp)
            simp [List.nodup_append, h1, hx]
          · intro pr hpr
            rcases List.mem_append.mp hpr with hin | hin
            · exact List.mem_cons_of_mem _ (h2 pr hin)
            · simp only [List.mem_singleton] at hin
              rw [hin]
              exact List.mem_cons_self _ _
        | none =>
          simp only [hl]
          apply ih rest (x :: processed) acc h1
          intro pr hpr
          exact List.mem_cons_of_mem _ (h2 pr hpr)

/-- C3: the type-closure traversal terminates for every declaration map and
every initial worklist — above the `closure_fuel` bound the fuelled loop's
result no longer depends on the fuel, so the loop always reaches its natural
end — and each declaration key is appended to the output at most once. -/
theorem claim_C3 :
    ∀ (all_type_defs : List (String × String)) (worklist : List String),
      (∀ fuel, closure_fuel all_type_defs worklist [] < fuel →
        wit_closure_go all_type_defs fuel worklist [] [] =
          wit_closure all_type_defs worklist) ∧
      ((wit_closure all_type_defs worklist).map Prod.fst).Nodup := by
  intro defs wl
  constructor
  · intro fuel hf
    have h2 := wit_closure_go_fuel_add defs (closure_fuel defs wl [] + 1)
      (fuel - (closure_fuel defs wl [] + 1)) wl [] [] (Nat.lt_succ_self _)
    have h3 : closure_fuel defs wl [] + 1 + (fuel - (closure_fuel defs wl [] + 1)) = fuel := by
      omega
    rw [h3] at h2
    unfold wit_closure
    exact h2.symm
  · exact wit_closure_go_nodup defs _ wl [] [] (by simp) (by simp)

/-- The declaration map of C3's witness: two declarations whose rendered
texts reference each other cyclically. -/
def c3_defs : List (String × String) :=
  [("aa", "    record aa \x7b\n        x: bb\n    \x7d"),
   ("bb", "    record bb \x7b\n        y: aa\n    \x7d")]

/-- Witness for C3 at the cyclic two-declaration map: fuel 20 exceeds the
bound, so the loop result equals the closure. -/
theorem claim_C3_witness :
    wit_closure_go c3_defs 20 ["aa"] [] [] = wit_closure c3_defs ["aa"] :=
  (claim_C3 c3_defs ["aa"]).1 20 (by decide)

/-- The syntax tree of C7's counterexample: a one-case enum `FooBar`
followed by a one-field struct `FOOBar`.  The identifiers are distinct (legal
Rust), but both normalize to `foo-bar`. -/
def c7_collision_ast : List Item :=
  [.enumItem ⟨"FooBar", [⟨"A", .unitV⟩]⟩,
   .structItem ⟨"FOOBar", .named [(some "x", .path (.cons "i32" .notAngle .nil))]⟩]

/-- C7, counterexample: on `c7_collision_ast` the collector's output map is
a SINGLE entry holding the struct's `record` block — the later struct's
insertion overwrote the enum's `variant` block under the shared normalized
key `foo-bar` (last write wins), so the output map contains no variant block
entry for the top-level enum `FooBar`, contradicting the claim. -/
theorem claim_C7_counterexample :
    collect_type_definitions c7_collision_ast =
      .ok [("foo-bar", record_block_text "foo-bar" ["        x: s32"])] ∧
    to_kebab_case "FooBar" = "foo-bar" ∧
    to_kebab_case "FOOBar" = "foo-bar" ∧
    record_block_text "foo-bar" ["        x: s32"] ≠
      variant_block_text "foo-bar" ["        a"] := by
  refine ⟨by decide, by decide, by decide, by decide⟩

/-- C7, amended: for every syntax tree, a struct with zero named fields
contributes nothing to the Type Declaration Collector's output — the
collector's result on the full tree is its result with that struct removed —
and every top-level enum's variant block is present in the output map under
the enum's normalized name UNLESS a later top-level declaration normalizes
to the same name, in which case the later declaration's block overwrites it
(last write wins). -/
theorem claim_C7_amended :
    (∀ (pre post : List Item) (s : StructItem) (m' : List (String × String)),
        zero_named_fields s.fields = true →
        collect_type_definitions (pre ++ .structItem s :: post) = .ok m' →
        collect_type_definitions (pre ++ post) = .ok m') ∧
    (∀ (pre post : List Item) (e : EnumItem) (variants : List String)
        (m' : List (String × String)),
        collect_type_definitions (pre ++ .enumItem e :: post) = .ok m' →
        e.variants.mapM enum_variant_render = .ok variants →
        (∀ it ∈ post, decl_kebab_name it ≠ some (to_kebab_case e.ident)) →
        m'.lookup (to_kebab_case e.ident) =
          some (variant_block_text (to_kebab_case e.ident) variants)) := by
  constructor
  · intro pre post s m' hz h
    unfold collect_type_definitions at h ⊢
    rw [collect_fold_append] at h ⊢
    cases hp : List.foldlM collect_step [] pre with
    | error e => rw [hp] at h; exact absurd h (by simp [Bind.bind, Except.bind])
    | ok m₁ =>
      rw [hp, except_bind_ok] at h
      rw [except_bind_ok]
      rw [List.foldlM_cons] at h
      cases hs : collect_step m₁ (.structItem s) with
      | error e => rw [hs] at h; exact absurd h (by simp [Bind.bind, Except.bind])
      | ok m₂ =>
        rw [hs, except_bind_ok] at h
        rw [collect_step_struct_empty m₁ s m₂ hz hs] at h
        exact h
  · intro pre post e variants m' h hmv hpost
    unfold collect_type_definitions at h
    rw [collect_fold_append] at h
    cases hp : List.foldlM collect_step [] pre with
    | error err => rw [hp] at h; exact absurd h (by simp [Bind.bind, Except.bind])
    | ok m₁ =>
      rw [hp, except_bind_ok, List.foldlM_cons] at h
      cases hs : collect_step m₁ (.enumItem e) with
      | error err => rw [hs] at h; exact absurd h (by simp [Bind.bind, Except.bind])
      | ok m₂ =>
        rw [hs, except_bind_ok] at h
        rw [collect_fold_preserve (to_kebab_case e.ident) post m₂ m' h hpost,
          collect_step_enum_eq m₁ m₂ e variants hs hmv, lookup_hm_insert]

/-- Witness for C7's amended theorem: removing a concrete unit struct leaves
the collector's output unchanged, and a concrete zero-case enum's variant
block survives a later struct with a different normalized name. -/
theorem claim_C7_witness :
    collect_type_definitions ([] ++ []) = .ok [] ∧
    ([("empty", "    variant empty \x7b\n\n    \x7d"),
      ("other", "    record other \x7b\n        x: s32\n    \x7d")].lookup
        (to_kebab_case "Empty")) = some (variant_block_text (to_kebab_case "Empty") []) :=
  ⟨claim_C7_amended.1 [] [] ⟨"Foo", .notNamed⟩ [] (by decide) (by decide),
   claim_C7_amended.2 []
     [.structItem ⟨"Other", .named [(some "x", .path (.cons "i32" .notAngle .nil))]⟩]
     ⟨"Empty", []⟩ []
     [("empty", "    variant empty \x7b\n\n    \x7d"),
      ("other", "    record other \x7b\n        x: s32\n    \x7d")]
     (by decide) (by decide) (by decide)⟩

/-- A bind whose continuation never fails errs exactly when its head errs. -/
lemma is_err_bind {α β : Type} (r : Except String α) (f : α → Except String β)
    (hf : ∀ a, is_err (f a) = false) : is_err (r >>= f) = is_err r := by
  cases r with
  | error e => rfl
  | ok a => show is_err (f a) = false; exact hf a

/-- `validate_name` fails exactly on names rejected by `bad_ident`. -/
lemma is_err_validate (n k : String) : is_err (validate_name n k) = bad_ident n := by
  unfold validate_name bad_ident
  by_cases h1 : n.toList.any is_digit = true
  · rw [if_pos h1, h1]
    rfl
  · have h1f : n.toList.any is_digit = false := by simpa using h1
    rw [if_neg h1, h1f]
    by_cases h2 : str_contains (lower_str n) "stream" = true
    · rw [if_pos h2, h2]
      rfl
    · have h2f : str_contains (lower_str n) "stream" = false := by simpa using h2
      rw [if_neg h2, h2f]
      rfl

/-- The last-segment case of the error characterization when the generic
arguments do not start with a type argument: neither `Vec` nor `Option`
recurses, so the mapper errs exactly when the name is a custom one failing
validation. -/
lemma seg_err_eq_noty (ident : String) (args : PathArgs) (u : List String)
    (hna : ∀ (inner : RustType) (rest : ArgList),
      args = PathArgs.angle (ArgList.consTy inner rest) → False) :
    is_err (seg_to_wit ident args u) = seg_visits_invalid ident args := by
  by_cases h1 : ident = "i32"
  · subst h1; rw [seg_to_wit.eq_1, seg_visits_invalid.eq_1]; rfl
  · by_cases h2 : ident = "u32"
    · subst h2; rw [seg_to_wit.eq_2, seg_visits_invalid.eq_2]; rfl
    · by_cases h3 : ident = "i64"
      · subst h3; rw [seg_to_wit.eq_3, seg_visits_invalid.eq_3]; rfl
      · by_cases h4 : ident = "u64"
        · subst h4; rw [seg_to_wit.eq_4, seg_visits_invalid.eq_4]; rfl
        · by_cases h5 : ident = "f32"
          · subst h5; rw [seg_to_wit.eq_5, seg_visits_invalid.eq_5]; rfl
          · by_cases h6 : ident = "f64"
            · subst h6; rw [seg_to_wit.eq_6, seg_visits_invalid.eq_6]; rfl
            · by_cases h7 : ident = "String"
              · subst h7; rw [seg_to_wit.eq_7, seg_visits_invalid.eq_7]; rfl
              · by_cases h8 : ident = "bool"
                · subst h8; rw [seg_to_wit.eq_8, seg_visits_invalid.eq_8]; rfl
                · by_cases h9 : ident = "Vec"
                  · subst h9
                    rw [seg_to_wit.eq_10 args u hna, seg_visits_invalid.eq_10 args hna]; rfl
                  · by_cases h10 : ident = "Option"
                    · subst h10
                      rw [seg_to_wit.eq_12 args u hna, seg_visits_invalid.eq_12 args hna]; rfl
                    · rw [seg_to_wit.eq_13 ident args u h1 h2 h3 h4 h5 h6 h7 h8 h9 h10
                          (fun _ _ hv _ => h9 hv) (fun _ _ hv _ => h10 hv),
                        seg_visits_invalid.eq_13 ident args h1 h2 h3 h4 h5 h6 h7 h8 h9 h10
                          (fun _ _ hv _ => h9 hv) (fun _ _ hv _ => h10 hv)]
                      rw [← is_err_validate ident "Type"]
                      cases hv : validate_name ident "Type" with
                      | error e => rfl
                      | ok a => rfl

/-! The error characterization of the Type Expression Mapper, by mutual
structural recursion mirroring `rust_type_to_wit`: the mapper errs on an
input exactly when an invalid custom name occurs in a position the mapper
actually traverses (`visits_invalid`). -/

mutual
theorem rtw_err_eq : ∀ (t : RustType) (u : List String),
    is_err (rust_type_to_wit t u) = visits_invalid t
  | .path segs, u => by
      rw [rust_type_to_wit.eq_1, visits_invalid.eq_1]
      exact path_err_eq segs u
  | .reference e, u => by
      rw [rust_type_to_wit.eq_2, visits_invalid.eq_2]
      exact rtw_err_eq e u
  | .tuple .nil, u => by
      rw [rust_type_to_wit.eq_3, visits_invalid.eq_3, tylist_visits_invalid.eq_1]
      rfl
  | .tuple (.cons t rest), u => by
      rw [rust_type_to_wit.eq_4, visits_invalid.eq_3]
      rw [is_err_bind _ _ (fun pr => by obtain ⟨a, b⟩ := pr; rfl)]
      exact tylist_err_eq (.cons t rest) u
  | .otherTy, u => by
      rw [rust_type_to_wit.eq_5, visits_invalid.eq_4]
      rfl
theorem path_err_eq : ∀ (segs : SegList) (u : List String),
    is_err (path_to_wit segs u) = path_visits_invalid segs
  | .nil, u => by
      rw [path_to_wit.eq_1, path_visits_invalid.eq_1]
      rfl
  | .cons ident args .nil, u => by
      rw [path_to_wit.eq_2, path_visits_invalid.eq_2]
      exact seg_err_eq ident args u
  | .cons a b (.cons i c r), u => by
      rw [path_to_wit.eq_3, path_visits_invalid.eq_3]
      exact path_err_eq (.cons i c r) u
theorem seg_err_eq : ∀ (ident : String) (args : PathArgs) (u : List String),
    is_err (seg_to_wit ident args u) = seg_visits_invalid ident args
  | ident, .notAngle, u =>
      seg_err_eq_noty ident .notAngle u (fun _ _ h => by cases h)
  | ident, .angle .nil, u =>
      seg_err_eq_noty ident (.angle .nil) u
        (fun _ _ h => by injection h with h2; cases h2)
  | ident, .angle (.consOther r), u =>
      seg_err_eq_noty ident (.angle (.consOther r)) u
        (fun _ _ h => by injection h with h2; cases h2)
  | ident, .angle (.consTy inner rest), u => by
      by_cases h1 : ident = "i32"
      · subst h1; rw [seg_to_wit.eq_1, seg_visits_invalid.eq_1]; rfl
      · by_cases h2 : ident = "u32"
        · subst h2; rw [seg_to_wit.eq_2, seg_visits_invalid.eq_2]; rfl
        · by_cases h3 : ident = "i64"
          · subst h3; rw [seg_to_wit.eq_3, seg_visits_invalid.eq_3]; rfl
          · by_cases h4 : ident = "u64"
            · subst h4; rw [seg_to_wit.eq_4, seg_visits_invalid.eq_4]; rfl
            · by_cases h5 : ident = "f32"
              · subst h5; rw [seg_to_wit.eq_5, seg_visits_invalid.eq_5]; rfl
              · by_cases h6 : ident = "f64"
                · subst h6; rw [seg_to_wit.eq_6, seg_visits_invalid.eq_6]; rfl
                · by_cases h7 : ident = "String"
                  · subst h7; rw [seg_to_wit.eq_7, seg_visits_invalid.eq_7]; rfl
                  · by_cases h8 : ident = "bool"
                    · subst h8; rw [seg_to_wit.eq_8, seg_visits_invalid.eq_8]; rfl
                    · by_cases h9 : ident = "Vec"
                      · subst h9
                        rw [seg_to_wit.eq_9, seg_visits_invalid.eq_9]
                        rw [is_err_bind _ _ (fun pr => by obtain ⟨a, b⟩ := pr; rfl)]
                        exact rtw_err_eq inner u
                      · by_cases h10 : ident = "Option"
                        · subst h10
                          rw [seg_to_wit.eq_11, seg_visits_invalid.eq_11]
                          rw [is_err_bind _ _ (fun pr => by obtain ⟨a, b⟩ := pr; rfl)]
                          exact rtw_err_eq inner u
                        · rw [seg_to_wit.eq_13 ident (.angle (.consTy inner rest)) u
                              h1 h2 h3 h4 h5 h6 h7 h8 h9 h10
                              (fun _ _ hv _ => h9 hv) (fun _ _ hv _ => h10 hv),
                            seg_visits_invalid.eq_13 ident (.angle (.consTy inner rest))
                              h1 h2 h3 h4 h5 h6 h7 h8 h9 h10
                              (fun _ _ hv _ => h9 hv) (fun _ _ hv _ => h10 hv)]
                          rw [← is_err_validate ident "Type"]
                          cases hv : validate_name ident "Type" with
                          | error e => rfl
                          | ok a => rfl
theorem tylist_err_eq : ∀ (l : TyList) (u : List String),
    is_err (tylist_to_wit l u) = tylist_visits_invalid l
  | .nil, u => by
      rw [tylist_to_wit.eq_1, tylist_visits_invalid.eq_1]
      rfl
  | .cons t rest, u => by
      rw [tylist_to_wit.eq_2, tylist_visits_invalid.eq_2]
      have h1 := rtw_err_eq t u
      cases hr : rust_type_to_wit t u with
      | error e =>
          rw [except_bind_err, ← h1, hr]
          rfl
      | ok pr =>
          obtain ⟨s1, u1⟩ := pr
          simp only [except_bind_ok]
          rw [is_err_bind _ _ (fun pr2 => by obtain ⟨a, b⟩ := pr2; rfl)]
          rw [tylist_err_eq rest u1, ← h1, hr]
          rfl
end

/-- The type expression of C9's counterexample: `Vec` whose angle-bracket
list starts with a non-type argument followed by the type argument `Bad1`.
The mapper only inspects the FIRST angle-bracketed argument, so `Bad1` is
never visited even though the expression contains an invalid custom path. -/
def c9_hidden : RustType :=
  .path (.cons "Vec"
    (.angle (.consOther (.consTy (.path (.cons "Bad1" .notAngle .nil)) .nil))) .nil)

/-- C9, counterexample: `c9_hidden` contains a path type whose last segment
is the custom name `Bad1` (which contains a digit), yet the mapper returns
`Ok` with the fallback spelling `list<any>` — so "error iff the input
contains an invalid custom path" fails in the "if" direction. -/
theorem claim_C9_counterexample :
    contains_invalid_path c9_hidden = true ∧
    rust_type_to_wit c9_hidden [] = .ok ("list<any>", []) ∧
    is_err (rust_type_to_wit c9_hidden []) = false := by
  refine ⟨by decide, by decide, by decide⟩

/-- C9, amended: the Type Expression Mapper returns an error if and only if
an invalid custom name (one containing a digit or the case-insensitive
substring "stream") occurs in a position the mapper actually traverses: the
last segment of the path itself, the FIRST angle-bracketed argument of
`Vec`/`Option` when it is a type, a reference target, or a tuple element.
Every other shape — malformed containers, empty-segment paths, unrecognized
forms, and invalid names hidden in untraversed positions — yields `Ok` with
a fallback spelling, for every incoming used-types set. -/
theorem claim_C9_amended (t : RustType) (u : List String) :
    is_err (rust_type_to_wit t u) = visits_invalid t :=
  rtw_err_eq t u

end WitGen
